import Mathlib

/-! Container-Lite-Lib, part one: `light_vector`.

A shallow embedding of `include/container_lite/light_vector.hpp`; the other two
headers follow further down.

* `size_t` values are natural numbers; arithmetic that the source performs
  without a preceding guard is reduced modulo `2 ^ 64` (`size_add`, `size_sub`).
* The storage reached through `data()` is a map from slot index to element.
  The header never checks an index against `capacity_`, so an access such as
  `data()[size_]` denotes whatever slot the address arithmetic reaches; the
  map is therefore total, and the slots `0 .. capacity_ - 1` are the ones that
  lie inside `buffer`.
* Placement-new `new (&data()[i]) T(v)` and move-assignment store a value in a
  slot.  A destructor call `data()[i].~T()` releases the element and leaves the
  bytes of the slot as they are (the element types of the examples are
  trivially destructible), so it does not appear in the slot map.
* `capacity_` is the compile-time constant `MaxBytes / sizeof(T)`; the
  operations that read it take it as their first argument.
-/

namespace container_lite

/-- Number of distinct values of a 64-bit `size_t`. -/
def SIZE_MOD : Nat := 18446744073709551616

/-- Unsigned `a + b` on `size_t`. -/
def size_add (a b : Nat) : Nat := (a + b) % SIZE_MOD

/-- Unsigned `a - b` on `size_t`; wraps around below zero. -/
def size_sub (a b : Nat) : Nat := (a % SIZE_MOD + SIZE_MOD - b % SIZE_MOD) % SIZE_MOD

/-- Storing `v` in slot `i` of a slot map. -/
def store {T : Type} (d : Nat → T) (i : Nat) (v : T) : Nat → T :=
  fun k => if k = i then v else d k

/-- The members of `light_vector<T, MaxBytes>`: the counter `size_` and the
slots seen through `data()`. -/
structure light_vector (T : Type) where
  size_ : Nat
  buffer : Nat → T

namespace light_vector

variable {T : Type}

/-- The live elements: slots `0 .. size_ - 1`, in index order. -/
def live (s : light_vector T) : List T :=
  (List.range s.size_).map s.buffer

/-- Constructor `light_vector() : size_(0), buffer{}`: the counter is zero and
every byte of the buffer is zero; `default` is the all-zero element. -/
def empty [Inhabited T] : light_vector T :=
  { size_ := 0, buffer := fun _ => default }

/-- Method `push_back`. -/
def push_back (capacity_ : Nat) (s : light_vector T) (element : T) : light_vector T :=
  if s.size_ ≥ capacity_ then s
  else { size_ := size_add s.size_ 1, buffer := store s.buffer s.size_ element }

/-- Method `operator+=`; its guard is `size_ > capacity_`. -/
def op_plus_eq (capacity_ : Nat) (s : light_vector T) (element : T) : light_vector T :=
  if s.size_ > capacity_ then s
  else { size_ := size_add s.size_ 1, buffer := store s.buffer s.size_ element }

/-- Method `pop_back`. -/
def pop_back (s : light_vector T) : light_vector T :=
  if s.size_ > 0 then { s with size_ := s.size_ - 1 } else s

/-- First loop of `insert`, `for (size_t i = 0; i > pos; i--)`, as a function
of the current counter value: the body stores `data()[i-1]` in slot
`i + count - 1` and the counter goes down by one.  `insert` enters it with
counter `0`. -/
def insert_shift (count pos : Nat) : Nat → (Nat → T) → (Nat → T)
  | 0, d => d
  | i + 1, d =>
    if i + 1 > pos then
      insert_shift count pos i (store d (size_sub (size_add (i + 1) count) 1) (d i))
    else d

/-- Second loop of `insert`, `for (size_t j = 0; j < count; j++)`, as a
function of the number of iterations left: each one stores `value` in slot
`pos - 1` and increments `size_`. -/
def insert_fill (pos : Nat) (value : T) : Nat → light_vector T → light_vector T
  | 0, s => s
  | n + 1, s =>
    insert_fill pos value n
      { size_ := size_add s.size_ 1, buffer := store s.buffer (size_sub pos 1) value }

/-- Method `insert(pos, value, count)`. -/
def insert (capacity_ : Nat) (s : light_vector T) (pos : Nat) (value : T) (count : Nat) :
    light_vector T :=
  if size_add s.size_ count > capacity_ ∨ pos > size_sub s.size_ 1 then s
  else insert_fill pos value count { s with buffer := insert_shift count pos 0 s.buffer }

/-- Loop of `erase`, `for (size_t i = 0; i < size_-1; i++) data()[i] = data()[i+1]`,
as a function of the iterations left and the counter. -/
def erase_loop : Nat → Nat → (Nat → T) → (Nat → T)
  | 0, _, d => d
  | n + 1, i, d => erase_loop n (i + 1) (store d i (d (i + 1)))

/-- Method `erase(index)`.  Past the guard `size_ ≥ 1`, so `size_ - 1` does not
wrap. -/
def erase (s : light_vector T) (index : Nat) : light_vector T :=
  if index ≥ s.size_ then s
  else { size_ := s.size_ - 1, buffer := erase_loop (s.size_ - 1) 0 s.buffer }

/-- Method `clear`: the loop only runs destructors. -/
def clear (s : light_vector T) : light_vector T :=
  if s.size_ = 0 then s else { s with size_ := 0 }

/-- Loop of `contains`, `for (size_t i = 0; i <= size_-1; i++)`, as a function
of the iterations left and the counter.  It returns the result of the scan
together with the indices of the slots it read, in order. -/
def contains_loop [DecidableEq T] (d : Nat → T) (element : T) : Nat → Nat → Bool × List Nat
  | 0, _ => (false, [])
  | n + 1, i =>
    if d i = element then (true, [i])
    else ((contains_loop d element n (i + 1)).1, i :: (contains_loop d element n (i + 1)).2)

/-- Method `contains` with the list of slots read.  Past the guard
`1 ≤ size_`, so the bound `size_-1` does not wrap and the loop runs for
`i = 0, ..., size_-1`. -/
def contains_trace [DecidableEq T] (s : light_vector T) (element : T) : Bool × List Nat :=
  if s.size_ = 0 then (false, [])
  else contains_loop s.buffer element (s.size_ - 1 + 1) 0

/-- Method `contains`. -/
def contains [DecidableEq T] (s : light_vector T) (element : T) : Bool :=
  (contains_trace s element).1

/-- Loop of `index_of`, `for (size_t i = 0; i <= size_-1; i++)`, with the bound
`last = size_-1` and a budget of loop tests.  `some i` is the returned value;
`none` is reported when the budget runs out. -/
def index_of_loop [DecidableEq T] (d : Nat → T) (element : T) (last : Nat) :
    Nat → Nat → Option Nat
  | 0, _ => none
  | fuel + 1, i =>
    if i ≤ last then
      if d i = element then some i else index_of_loop d element last fuel (size_add i 1)
    else some 0

/-- Method `index_of`.  The bound `size_-1` is computed without a guard.  With
`last < 2 ^ 64 - 1` the loop makes at most `last + 2` tests.  With
`last = 2 ^ 64 - 1` (empty vector) the test `i <= last` never fails and after
`2 ^ 64` iterations the counter is back at `0`, so `none` here means that the
call does not return. -/
def index_of [DecidableEq T] (s : light_vector T) (element : T) : Option Nat :=
  index_of_loop s.buffer element (size_sub s.size_ 1) (size_sub s.size_ 1 + 2) 0

/-- Method `operator-=`; `none` when the call to `index_of` does not return. -/
def op_minus_eq [DecidableEq T] (s : light_vector T) (element : T) : Option (light_vector T) :=
  if !contains s element then some s
  else (index_of s element).map (erase s)

/-- Loop of `operator==`, as a function of the iterations left and the counter. -/
def op_eq_loop [DecidableEq T] (d od : Nat → T) : Nat → Nat → Bool
  | 0, _ => true
  | n + 1, i => if d i ≠ od i then false else op_eq_loop d od n (i + 1)

/-- Method `operator==`. -/
def op_eq [DecidableEq T] (s other : light_vector T) : Bool :=
  if s.size_ = 0 ∨ s.size_ ≠ other.size_ then false
  else op_eq_loop s.buffer other.buffer (s.size_ - 1 + 1) 0

/-- Loop of `operator!=`, as a function of the iterations left and the counter. -/
def op_ne_loop [DecidableEq T] (d od : Nat → T) : Nat → Nat → Bool
  | 0, _ => true
  | n + 1, i => if d i = od i then false else op_ne_loop d od n (i + 1)

/-- Method `operator!=`; the value is that of the loop unless the loop finishes
and the sizes agree. -/
def op_ne [DecidableEq T] (s other : light_vector T) : Bool :=
  if s.size_ = 0 ∨ other.size_ = 0 then false
  else
    if op_ne_loop s.buffer other.buffer
        ((if s.size_ < other.size_ then s.size_ else other.size_) - 1 + 1) 0 then
      if s.size_ = other.size_ then false else true
    else false

/-- Loop of `operator<`, as a function of the iterations left and the counter. -/
def op_lt_loop [LinearOrder T] (d od : Nat → T) : Nat → Nat → Bool
  | 0, _ => true
  | n + 1, i => if d i ≥ od i then false else op_lt_loop d od n (i + 1)

/-- Method `operator<`. -/
def op_lt [LinearOrder T] (s other : light_vector T) : Bool :=
  if s.size_ = 0 ∨ s.size_ > other.size_ then false
  else
    op_lt_loop s.buffer other.buffer
      ((if s.size_ < other.size_ then s.size_ else other.size_) - 1 + 1) 0

/-- A call of one of the public mutating members. -/
inductive mutation (T : Type) where
  | push_back (element : T)
  | op_plus_eq (element : T)
  | op_minus_eq (element : T)
  | pop_back
  | insert (pos : Nat) (value : T) (count : Nat)
  | erase (index : Nat)
  | clear

/-- The state after one call; `none` when the call does not return. -/
def step [DecidableEq T] (capacity_ : Nat) (s : light_vector T) :
    mutation T → Option (light_vector T)
  | .push_back element => some (push_back capacity_ s element)
  | .op_plus_eq element => some (op_plus_eq capacity_ s element)
  | .op_minus_eq element => op_minus_eq s element
  | .pop_back => some (pop_back s)
  | .insert pos value count => some (insert capacity_ s pos value count)
  | .erase index => some (erase s index)
  | .clear => some (clear s)

/-- The state after a sequence of calls, made in list order. -/
def run [DecidableEq T] (capacity_ : Nat) : light_vector T → List (mutation T) →
    Option (light_vector T)
  | s, [] => some s
  | s, m :: ms => (step capacity_ s m).bind fun t => run capacity_ t ms

/-- The vector obtained from the constructor by `push_back` of each element of
`xs` in turn. -/
def of_list [Inhabited T] (capacity_ : Nat) (xs : List T) : light_vector T :=
  xs.foldl (push_back capacity_) empty

/-- Standard lexicographic order on the live elements, in the words of the
specification: `a` is a proper prefix of `b`, or at the first index where they
differ the element of `a` is the smaller one. -/
def lex_precedes [LinearOrder T] (a b : light_vector T) : Prop :=
  (a.size_ < b.size_ ∧ ∀ i, i < a.size_ → a.buffer i = b.buffer i) ∨
  (∃ k, k < a.size_ ∧ k < b.size_ ∧ (∀ i, i < k → a.buffer i = b.buffer i) ∧
    a.buffer k < b.buffer k)

/-- The call `std::swap(d[i], d[j])`: `tmp = d[i]; d[i] = d[j]; d[j] = tmp`. -/
def swap_slots (d : Nat → T) (i j : Nat) : Nat → T :=
  store (store d i (d j)) j (d i)

/-- Loop of `reverse`, `for (size_t i = 0; i < size_/2; i++)`, as a function of
the iterations left and the counter: the body swaps slot `i` with slot
`size_-i`. -/
def reverse_loop (size_ : Nat) : Nat → Nat → (Nat → T) → (Nat → T)
  | 0, _, d => d
  | n + 1, i, d => reverse_loop size_ n (i + 1) (swap_slots d i (size_ - i))

/-- Method `reverse`.  The counter stays below `size_/2`, so `size_-i` does not
wrap. -/
def reverse (s : light_vector T) : light_vector T :=
  { s with buffer := reverse_loop s.size_ (s.size_ / 2) 0 s.buffer }

/-- Method `empty()`, `return data()[0] == nullptr;` (the name `empty` is taken
by the constructor above).  For a pointer element type the null pointer is the
all-zero element `default`. -/
def is_empty [DecidableEq T] [Inhabited T] (s : light_vector T) : Bool :=
  decide (s.buffer 0 = default)

/-- Method `size()`. -/
def size (s : light_vector T) : Nat := s.size_

end light_vector

/-! # `static_vector`

A shallow embedding of `include/container_lite/static_vector.hpp`, with the
same conventions; `capacity_` is the template argument `N`. -/

/-- The members of `static_vector<T, N>`. -/
structure static_vector (T : Type) where
  size_ : Nat
  buffer : Nat → T

namespace static_vector

variable {T : Type}

/-- The live elements: slots `0 .. size_ - 1`, in index order. -/
def live (s : static_vector T) : List T :=
  (List.range s.size_).map s.buffer

/-- Constructor `static_vector() : size_(0), buffer{}`. -/
def init [Inhabited T] : static_vector T :=
  { size_ := 0, buffer := fun _ => default }

/-- Method `push_back`; its guard is `size_ == capacity_`. -/
def push_back (capacity_ : Nat) (s : static_vector T) (element : T) : static_vector T :=
  if s.size_ = capacity_ then s
  else { size_ := size_add s.size_ 1, buffer := store s.buffer s.size_ element }

/-- Method `pop_back`.  Past the guard `size_ ≥ 1`, so `size_--` does not wrap. -/
def pop_back (s : static_vector T) : static_vector T :=
  if s.size_ = 0 then s else { s with size_ := s.size_ - 1 }

/-- Method `clear`: the loop only runs destructors. -/
def clear (s : static_vector T) : static_vector T :=
  if s.size_ = 0 then s else { s with size_ := 0 }

/-- Method `empty()`, `return data()[0] == nullptr;`. -/
def empty [DecidableEq T] [Inhabited T] (s : static_vector T) : Bool :=
  decide (s.buffer 0 = default)

/-- A call of one of the mutating members. -/
inductive call (T : Type) where
  | push_back (element : T)
  | pop_back
  | clear

/-- The state after one call. -/
def step (capacity_ : Nat) (s : static_vector T) : call T → static_vector T
  | .push_back element => push_back capacity_ s element
  | .pop_back => pop_back s
  | .clear => clear s

/-- The state after a sequence of calls, made in list order. -/
def run (capacity_ : Nat) : static_vector T → List (call T) → static_vector T
  | s, [] => s
  | s, c :: cs => run capacity_ (step capacity_ s c) cs

/-- List model of one call, in the words of the specification: `push_back`
appends unless the length is `N` (then no-op), `pop_back` drops the last
element unless the list is empty (then no-op), `clear` yields the empty list. -/
def model_step (N : Nat) (xs : List T) : call T → List T
  | .push_back element => if xs.length = N then xs else xs ++ [element]
  | .pop_back => if xs.length = 0 then xs else xs.dropLast
  | .clear => []

/-- List model of a sequence of calls. -/
def model_run (N : Nat) : List T → List (call T) → List T
  | xs, [] => xs
  | xs, c :: cs => model_run N (model_step N xs c) cs

end static_vector

/-! # `static_string`

A shallow embedding of `include/container_lite/static_string.hpp`.

* A `char` is its character code, a natural number; `'\0'` is `0`, and
  characters compare by code.
* `data_` points into storage owned by the caller; the storage is a map from
  index to character and the methods that write through `data_` return the
  new map.
* Loop bounds `size_-1` that the source computes without a guard wrap around
  for `size_ == 0`; those loops carry a budget of loop tests and report `none`
  when it runs out.
-/

/-- The members of `static_string`. -/
structure static_string where
  data_ : Nat → Nat
  size_ : Nat

namespace static_string

/-- The storage of a string literal: its characters followed by zero bytes. -/
def c_str (s : String) : Nat → Nat :=
  fun i => (s.toList.map Char.toNat).getD i 0

/-- Loop of `get_size`, `while (string[i] != '\0') i++`, with a budget of loop
tests; `none` when the budget runs out. -/
def get_size_loop (string : Nat → Nat) : Nat → Nat → Option Nat
  | 0, _ => none
  | fuel + 1, i =>
    if string i ≠ 0 then get_size_loop string fuel (size_add i 1) else some i

/-- Helper `get_size`.  After `2 ^ 64` tests the counter is back at `0`, so
`none` means that the scan does not return. -/
def get_size (string : Nat → Nat) : Option Nat :=
  get_size_loop string SIZE_MOD 0

/-- Constructor `static_string(char* cstring)`. -/
def make (cstring : Nat → Nat) : Option static_string :=
  (get_size cstring).map fun n => { data_ := cstring, size_ := n }

/-- Method `operator[]`: returns `data_[index]`.  For `index > size_-1` the
source also writes a message to `std::cerr`; the returned reference is the
same. -/
def op_index (s : static_string) (index : Nat) : Nat :=
  s.data_ index

/-- Method `empty()`. -/
def empty (s : static_string) : Bool :=
  decide (s.size_ = 0)

/-- Method `length()`. -/
def length (s : static_string) : Nat :=
  s.size_

/-- Loop of `operator==`, `for (size_t i = 0; i <= size_-1; i++)`, with the
bound `last = size_-1` and a budget of loop tests. -/
def op_eq_loop (d sd : Nat → Nat) (last : Nat) : Nat → Nat → Option Bool
  | 0, _ => none
  | fuel + 1, i =>
    if i ≤ last then
      if d i ≠ sd i then some false else op_eq_loop d sd last fuel (size_add i 1)
    else some true

/-- Method `operator==`.  With `last < 2 ^ 64 - 1` the loop makes at most
`last + 2` tests.  With `last = 2 ^ 64 - 1` (`size_ == 0`) the test
`i <= last` never fails and after `2 ^ 64` iterations the counter is back at
`0`, so `none` means that the call does not return. -/
def op_eq (s str : static_string) : Option Bool :=
  if s.size_ ≠ str.size_ then some false
  else op_eq_loop s.data_ str.data_ (size_sub s.size_ 1) (size_sub s.size_ 1 + 2) 0

/-- Loop of `operator<`, with the bound `last = size_-1` and a budget of loop
tests; `some true` when the loop runs to its end. -/
def op_lt_loop (d sd : Nat → Nat) (last : Nat) : Nat → Nat → Option Bool
  | 0, _ => none
  | fuel + 1, i =>
    if i ≤ last then
      if d i > sd i then some false else op_lt_loop d sd last fuel (size_add i 1)
    else some true

/-- Method `operator<`: the loop, then the test `size_ > str.size_`.  `none`
means that the call does not return, as for `operator==`. -/
def op_lt (s str : static_string) : Option Bool :=
  (op_lt_loop s.data_ str.data_ (size_sub s.size_ 1) (size_sub s.size_ 1 + 2) 0).map
    fun finished => if finished then (if s.size_ > str.size_ then false else true) else false

/-- Loop of `reverse`, `for (size_t i = 0; i < size_/2; i++)`, as a function of
the iterations left and the counter: the body swaps `data_[i]` with
`data_[size_ - 1 - i]`. -/
def reverse_loop (size_ : Nat) : Nat → Nat → (Nat → Nat) → (Nat → Nat)
  | 0, _, d => d
  | n + 1, i, d =>
    reverse_loop size_ n (i + 1) (store (store d i (d (size_ - 1 - i))) (size_ - 1 - i) (d i))

/-- Method `reverse`; the view afterwards (same `size_`, rewritten storage).
Past the guard `size_ ≥ 2` and with `i < size_/2`, `size_ - 1 - i` does not
wrap. -/
def reverse (s : static_string) : static_string :=
  if s.size_ < 2 then s
  else { s with data_ := reverse_loop s.size_ (s.size_ / 2) 0 s.data_ }

/-- How the inner loop of `find` ends: by `return position`, or by leaving the
loop (through `break` or its condition) with the values of `position` and
`jump`. -/
inductive inner_exit where
  | returned (position : Nat)
  | left (position jump : Nat)

/-- Inner loop of `find`, `for (size_t j = 0; j <= substr.length()-1;)`, for the
outer counter `i`, as a function of the iterations left, `j`, `jump` and
`position`; `m1` is `substr.length()-1`. -/
def find_inner (s substr : static_string) (i m1 : Nat) :
    Nat → Nat → Nat → Nat → inner_exit
  | 0, _, jump, position => .left position jump
  | n + 1, j, jump, position =>
    if s.data_ (size_add i jump) = op_index substr j then
      if j + 1 = m1 then .returned i
      else find_inner s substr i m1 n (j + 1) (size_add jump 1) position
    else .left 0 0

/-- Outer loop of `find`, `for (size_t i = index; i <= size_-1; i++)`, as a
function of the iterations left, the counter, `position` and `jump`. -/
def find_outer (s substr : static_string) : Nat → Nat → Nat → Nat → Nat
  | 0, _, position, _ => position
  | n + 1, i, position, jump =>
    if s.data_ i = op_index substr 0 then
      match find_inner s substr i (length substr - 1) (length substr - 1 + 1) 0 jump position with
      | .returned p => p
      | .left position2 jump2 => find_outer s substr n (i + 1) position2 jump2
    else find_outer s substr n (i + 1) position jump

/-- Method `find(substr, index)`.  Past the guard both lengths are at least 1,
so `size_-1` and `substr.length()-1` do not wrap; the outer loop runs for
`i = index, ..., size_-1`. -/
def find (s substr : static_string) (index : Nat) : Nat :=
  if empty s ∨ empty substr then 0
  else find_outer s substr (s.size_ - 1 + 1 - index) index 0 0

/-- The pattern `p` occurs in `s` at index `i`: every character of `p` matches,
in the words of the specification a contiguous match at `i`. -/
def occurs_at (s p : static_string) (i : Nat) : Prop :=
  ∀ j, j < p.size_ → s.data_ (i + j) = p.data_ j

instance (s p : static_string) (i : Nat) : Decidable (occurs_at s p i) :=
  inferInstanceAs (Decidable (∀ j, j < p.size_ → s.data_ (i + j) = p.data_ j))

/-- Strict lexicographic order on two views, in the words of the
specification: the first differing character decides, and a proper prefix
orders before its extension. -/
def lex_less (a b : static_string) : Prop :=
  (a.size_ < b.size_ ∧ ∀ i, i < a.size_ → a.data_ i = b.data_ i) ∨
  (∃ k, k < a.size_ ∧ k < b.size_ ∧ (∀ i, i < k → a.data_ i = b.data_ i) ∧
    a.data_ k < b.data_ k)

/-- All characters of the pattern `p` but the last match `s` from index `i` on. -/
def prefix_match (s p : static_string) (i : Nat) : Prop :=
  ∀ j, j < p.size_ - 1 → s.data_ (i + j) = p.data_ j

instance (s p : static_string) (i : Nat) : Decidable (prefix_match s p i) :=
  inferInstanceAs (Decidable (∀ j, j < p.size_ - 1 → s.data_ (i + j) = p.data_ j))

/-- The inner loop of `find` once more, now returning with its exit the list
of the comparisons `data_[a] == substr[b]` it evaluates, each recorded as the
pair `(a, b)` of the index read through `data_` and the index read through
`substr[...]`, in order. -/
def find_inner_trace (s substr : static_string) (i m1 : Nat) :
    Nat → Nat → Nat → Nat → inner_exit × List (Nat × Nat)
  | 0, _, jump, position => (.left position jump, [])
  | n + 1, j, jump, position =>
    if s.data_ (size_add i jump) = op_index substr j then
      if j + 1 = m1 then (.returned i, [(size_add i jump, j)])
      else
        ((find_inner_trace s substr i m1 n (j + 1) (size_add jump 1) position).1,
          (size_add i jump, j) ::
            (find_inner_trace s substr i m1 n (j + 1) (size_add jump 1) position).2)
    else (.left 0 0, [(size_add i jump, j)])

/-- The outer loop of `find` with the list of comparisons: the test
`data_[i] == substr[0]` is the pair `(i, 0)`, followed by the comparisons of
the inner loop when it is entered. -/
def find_outer_trace (s substr : static_string) :
    Nat → Nat → Nat → Nat → Nat × List (Nat × Nat)
  | 0, _, position, _ => (position, [])
  | n + 1, i, position, jump =>
    if s.data_ i = op_index substr 0 then
      match (find_inner_trace s substr i (length substr - 1) (length substr - 1 + 1)
          0 jump position).1 with
      | .returned p =>
        (p, (i, 0) :: (find_inner_trace s substr i (length substr - 1)
          (length substr - 1 + 1) 0 jump position).2)
      | .left position2 jump2 =>
        ((find_outer_trace s substr n (i + 1) position2 jump2).1,
          (i, 0) :: ((find_inner_trace s substr i (length substr - 1)
            (length substr - 1 + 1) 0 jump position).2 ++
              (find_outer_trace s substr n (i + 1) position2 jump2).2))
    else
      ((find_outer_trace s substr n (i + 1) position jump).1,
        (i, 0) :: (find_outer_trace s substr n (i + 1) position jump).2)

/-- Method `find` with the list of the character comparisons it evaluates. -/
def find_trace (s substr : static_string) (index : Nat) : Nat × List (Nat × Nat) :=
  if empty s ∨ empty substr then (0, [])
  else find_outer_trace s substr (s.size_ - 1 + 1 - index) index 0 0

end static_string

namespace light_vector

variable {T : Type}

/-! ## Auxiliary facts -/

theorem size_add_eq (a b : Nat) (h : a + b < SIZE_MOD) : size_add a b = a + b := by
  unfold size_add
  exact Nat.mod_eq_of_lt h

theorem store_same (d : Nat → T) (i : Nat) (v : T) : store d i v i = v := by
  simp [store]

theorem store_other (d : Nat → T) (i k : Nat) (v : T) (h : k ≠ i) : store d i v k = d k := by
  simp [store, h]

theorem live_congr (s t : light_vector T) (hsize : s.size_ = t.size_)
    (hbuf : ∀ i, i < s.size_ → s.buffer i = t.buffer i) : live s = live t := by
  unfold live
  rw [← hsize]
  apply List.map_congr_left
  intro i hi
  exact hbuf i (List.mem_range.mp hi)

theorem push_back_full (capacity_ : Nat) (s : light_vector T) (v : T)
    (h : capacity_ ≤ s.size_) : push_back capacity_ s v = s := by
  unfold push_back
  rw [if_pos h]

theorem push_back_room (capacity_ : Nat) (s : light_vector T) (v : T)
    (h : s.size_ < capacity_) (hcap : capacity_ < SIZE_MOD) :
    push_back capacity_ s v = { size_ := s.size_ + 1, buffer := store s.buffer s.size_ v } := by
  unfold push_back
  rw [if_neg (Nat.not_le.mpr h), size_add_eq _ _ (by omega)]

theorem op_eq_loop_true [DecidableEq T] (d od : Nat → T) (n i : Nat) :
    op_eq_loop d od n i = true ↔ ∀ k, i ≤ k → k < i + n → d k = od k := by
  induction n generalizing i with
  | zero =>
    simp only [op_eq_loop, true_iff]
    intro k h1 h2
    omega
  | succ n ih =>
    unfold op_eq_loop
    by_cases h : d i = od i
    · simp only [ne_eq, h, not_true_eq_false, if_false, ih]
      constructor
      · intro hall k h1 h2
        rcases Nat.eq_or_lt_of_le h1 with heq | hlt
        · rw [← heq]
          exact h
        · exact hall k hlt (by omega)
      · intro hall k h1 h2
        exact hall k (by omega) (by omega)
    · simp only [ne_eq, h, not_false_eq_true, if_true, Bool.false_eq_true, false_iff]
      intro hall
      exact h (hall i (Nat.le_refl i) (by omega))

theorem op_lt_loop_true [LinearOrder T] (d od : Nat → T) (n i : Nat) :
    op_lt_loop d od n i = true ↔ ∀ k, i ≤ k → k < i + n → d k < od k := by
  induction n generalizing i with
  | zero =>
    simp only [op_lt_loop, true_iff]
    intro k h1 h2
    omega
  | succ n ih =>
    unfold op_lt_loop
    by_cases h : d i ≥ od i
    · simp only [h, if_true, Bool.false_eq_true, false_iff]
      intro hall
      exact absurd (hall i (Nat.le_refl i) (by omega)) (not_lt.mpr h)
    · simp only [h, if_false, ih]
      constructor
      · intro hall k h1 h2
        rcases Nat.eq_or_lt_of_le h1 with heq | hlt
        · rw [← heq]
          exact not_le.mp h
        · exact hall k hlt (by omega)
      · intro hall k h1 h2
        exact hall k (by omega) (by omega)

theorem contains_loop_true [DecidableEq T] (d : Nat → T) (e : T) (n i : Nat) :
    (contains_loop d e n i).1 = true ↔ ∃ k, i ≤ k ∧ k < i + n ∧ d k = e := by
  induction n generalizing i with
  | zero =>
    simp only [contains_loop, Bool.false_eq_true, false_iff]
    rintro ⟨k, h1, h2, _⟩
    omega
  | succ n ih =>
    unfold contains_loop
    by_cases h : d i = e
    · simp only [h, if_true, true_iff]
      exact ⟨i, Nat.le_refl i, by omega, h⟩
    · simp only [h, if_false, ih]
      constructor
      · rintro ⟨k, h1, h2, h3⟩
        exact ⟨k, by omega, by omega, h3⟩
      · rintro ⟨k, h1, h2, h3⟩
        rcases Nat.eq_or_lt_of_le h1 with heq | hlt
        · rw [← heq] at h3
          exact absurd h3 h
        · exact ⟨k, hlt, by omega, h3⟩

theorem contains_loop_reads [DecidableEq T] (d : Nat → T) (e : T) (n i : Nat) :
    ∀ k, k ∈ (contains_loop d e n i).2 → i ≤ k ∧ k < i + n := by
  induction n generalizing i with
  | zero =>
    intro k hk
    simp [contains_loop] at hk
  | succ n ih =>
    intro k hk
    unfold contains_loop at hk
    by_cases h : d i = e
    · simp only [h, if_true, List.mem_singleton] at hk
      omega
    · simp only [h, if_false, List.mem_cons] at hk
      rcases hk with heq | hmem
      · omega
      · have := ih (i + 1) k hmem
        omega

theorem size_sub_one (a : Nat) (h0 : a ≠ 0) (h : a < SIZE_MOD) : size_sub a 1 = a - 1 := by
  unfold size_sub
  unfold SIZE_MOD at *
  omega

theorem index_of_loop_absent [DecidableEq T] (d : Nat → T) (e : T) (last : Nat)
    (hlast : last + 1 < SIZE_MOD) (fuel : Nat) :
    ∀ i, i ≤ last + 1 → last + 2 ≤ fuel + i → (∀ k, i ≤ k → k ≤ last → d k ≠ e) →
      index_of_loop d e last fuel i = some 0 := by
  induction fuel with
  | zero =>
    intro i hi hfuel _
    omega
  | succ fuel ih =>
    intro i hi hfuel habs
    unfold index_of_loop
    by_cases hle : i ≤ last
    · rw [if_pos hle, if_neg (habs i (Nat.le_refl i) hle), size_add_eq i 1 (by omega)]
      exact ih (i + 1) (by omega) (by omega) (fun k h1 h2 => habs k (by omega) h2)
    · rw [if_neg hle]

theorem index_of_loop_found [DecidableEq T] (d : Nat → T) (e : T) (last : Nat)
    (hlast : last + 1 < SIZE_MOD) (m : Nat) (hm : m ≤ last) (hdm : d m = e) (fuel : Nat) :
    ∀ i, i ≤ m → m < fuel + i → (∀ k, i ≤ k → k < m → d k ≠ e) →
      index_of_loop d e last fuel i = some m := by
  induction fuel with
  | zero =>
    intro i hi hfuel _
    omega
  | succ fuel ih =>
    intro i hi hfuel hbefore
    unfold index_of_loop
    rw [if_pos (Nat.le_trans hi hm)]
    by_cases him : i = m
    · rw [him, if_pos hdm]
    · have hlt : i < m := Nat.lt_of_le_of_ne hi him
      rw [if_neg (hbefore i (Nat.le_refl i) hlt), size_add_eq i 1 (by omega)]
      exact ih (i + 1) (by omega) (by omega) (fun k h1 h2 => hbefore k (by omega) h2)

/-! ## Claims -/

/-- C1: for a state with `size_ ≤ capacity_`, `push_back` on a full vector
leaves the length and every live element as they were; otherwise the new
length is `size_ + 1`, slot `size_` holds the pushed value and every
previously live element is unchanged at its index. -/
theorem push_back_contract (capacity_ : Nat) (s : light_vector T) (v : T)
    (hsize : s.size_ ≤ capacity_) (hcap : capacity_ < SIZE_MOD) :
    (s.size_ = capacity_ →
      (push_back capacity_ s v).size_ = s.size_ ∧
      ∀ i, i < s.size_ → (push_back capacity_ s v).buffer i = s.buffer i) ∧
    (s.size_ ≠ capacity_ →
      (push_back capacity_ s v).size_ = s.size_ + 1 ∧
      (push_back capacity_ s v).buffer s.size_ = v ∧
      ∀ i, i < s.size_ → (push_back capacity_ s v).buffer i = s.buffer i) := by
  constructor
  · intro hfull
    rw [push_back_full capacity_ s v (Nat.le_of_eq hfull.symm)]
    exact ⟨rfl, fun _ _ => rfl⟩
  · intro hne
    rw [push_back_room capacity_ s v (Nat.lt_of_le_of_ne hsize hne) hcap]
    refine ⟨rfl, store_same _ _ _, ?_⟩
    intro i hi
    exact store_other _ _ _ _ (Nat.ne_of_lt hi)

/-- C1 at capacity 4: pushing 4 onto `[1, 2, 3]` gives length 4 with 4 in slot 3. -/
theorem push_back_contract_witness :
    (of_list 4 [1, 2, 3] : light_vector Int).size_ ≤ 4 ∧ 4 < SIZE_MOD ∧
    (push_back 4 (of_list 4 [1, 2, 3] : light_vector Int) 4).size_ = 4 ∧
    (push_back 4 (of_list 4 [1, 2, 3] : light_vector Int) 4).buffer 3 = 4 :=
  ⟨by decide, by decide,
    ((push_back_contract 4 (of_list 4 [1, 2, 3] : light_vector Int) 4
      (by decide) (by decide)).2 (by decide)).1,
    ((push_back_contract 4 (of_list 4 [1, 2, 3] : light_vector Int) 4
      (by decide) (by decide)).2 (by decide)).2.1⟩

/-- C5: with room for one more element, `push_back` followed by `pop_back`
gives back the former length and the former sequence of live elements. -/
theorem push_back_pop_back_roundtrip (capacity_ : Nat) (s : light_vector T) (v : T)
    (hroom : s.size_ < capacity_) (hcap : capacity_ < SIZE_MOD) :
    (pop_back (push_back capacity_ s v)).size_ = s.size_ ∧
    live (pop_back (push_back capacity_ s v)) = live s := by
  rw [push_back_room capacity_ s v hroom hcap]
  have hpop : pop_back ({ size_ := s.size_ + 1, buffer := store s.buffer s.size_ v } :
      light_vector T) = { size_ := s.size_, buffer := store s.buffer s.size_ v } := by
    simp [pop_back]
  rw [hpop]
  refine ⟨rfl, live_congr _ _ rfl ?_⟩
  intro i hi
  exact store_other _ _ _ _ (Nat.ne_of_lt hi)

/-- C5 at capacity 4: `[1, 2]`, `push_back(7)`, `pop_back()` is `[1, 2]` again. -/
theorem push_back_pop_back_roundtrip_witness :
    (of_list 4 [1, 2] : light_vector Int).size_ < 4 ∧ 4 < SIZE_MOD ∧
    (pop_back (push_back 4 (of_list 4 [1, 2] : light_vector Int) 7)).size_ =
      (of_list 4 [1, 2] : light_vector Int).size_ ∧
    live (pop_back (push_back 4 (of_list 4 [1, 2] : light_vector Int) 7)) =
      live (of_list 4 [1, 2] : light_vector Int) :=
  ⟨by decide, by decide,
    push_back_pop_back_roundtrip 4 (of_list 4 [1, 2] : light_vector Int) 7
      (by decide) (by decide)⟩

/-- C2: on `[1, 2, 3]` with capacity 5, `insert(1, 9, 2)` does not shift
anything: the first loop never runs, both copies of 9 are stored in slot
`pos - 1 = 0`, and the length grows to 5 over two slots that were never
constructed.  The live sequence is `[9, 2, 3, 0, 0]`, not `[1, 9, 9, 2, 3]`. -/
theorem insert_example_no_shift :
    (insert 5 (of_list 5 [1, 2, 3] : light_vector Int) 1 9 2).size_ = 5 ∧
    live (insert 5 (of_list 5 [1, 2, 3] : light_vector Int) 1 9 2) = [9, 2, 3, 0, 0] ∧
    live (insert 5 (of_list 5 [1, 2, 3] : light_vector Int) 1 9 2) ≠ [1, 9, 9, 2, 3] := by
  decide

/-- C3: on `[1, 2, 3]`, `erase(1)` removes the element at index 0, not the one
at index 1: the shifting loop starts at `i = 0` whatever `index` is. -/
theorem erase_example_removes_front :
    (erase (of_list 5 [1, 2, 3] : light_vector Int) 1).size_ = 2 ∧
    live (erase (of_list 5 [1, 2, 3] : light_vector Int) 1) = [2, 3] ∧
    live (erase (of_list 5 [1, 2, 3] : light_vector Int) 1) ≠ [1, 3] := by
  decide

/-- C4: with capacity 1, `push_back(1)` followed by `+= 2` returns with
`size_ = 2`, above the capacity: the guard of `operator+=` lets a full vector
through. -/
theorem op_plus_eq_exceeds_capacity :
    ∃ s, run 1 (empty : light_vector Int) [.push_back 1, .op_plus_eq 2] = some s ∧
      s.size_ = 2 ∧ ¬ s.size_ ≤ 1 :=
  ⟨op_plus_eq 1 (push_back 1 empty 1) 2, rfl, by decide, by decide⟩

/-- C6: on the empty vector with capacity 4, `insert(1, 9, 1)` has
`pos > length`, and yet the call changes the length to 1 and stores 9 in
slot 0: `size_-1` wraps, so the guard `pos > size_-1` cannot fire. -/
theorem insert_empty_bad_pos_mutates :
    (empty : light_vector Int).size_ = 0 ∧
    (insert 4 (empty : light_vector Int) 1 9 1).size_ = 1 ∧
    live (insert 4 (empty : light_vector Int) 1 9 1) = [9] := by
  decide

/-- C7 as stated fails on two empty vectors: they have the same length and
agree on every index below it, and `==` returns false. -/
theorem op_eq_empty_counterexample :
    ¬ (op_eq (empty : light_vector Int) empty = true ↔
        ((empty : light_vector Int).size_ = (empty : light_vector Int).size_ ∧
          ∀ i, i < (empty : light_vector Int).size_ →
            (empty : light_vector Int).buffer i = (empty : light_vector Int).buffer i)) := by
  intro h
  have hfalse : op_eq (empty : light_vector Int) empty = false := by decide
  rw [hfalse] at h
  exact Bool.false_ne_true (h.mpr ⟨rfl, fun _ _ => rfl⟩)

/-- C7, amended: `a == b` returns true exactly when `a` is not empty, the
lengths are equal and `a[i]` equals `b[i]` for every `i` below the length. -/
theorem op_eq_iff [DecidableEq T] (a b : light_vector T) :
    op_eq a b = true ↔
      a.size_ ≠ 0 ∧ a.size_ = b.size_ ∧ ∀ i, i < a.size_ → a.buffer i = b.buffer i := by
  unfold op_eq
  by_cases h0 : a.size_ = 0
  · simp [h0]
  · by_cases hs : a.size_ = b.size_
    · have hn : a.size_ - 1 + 1 = a.size_ := by omega
      have hguard : ¬ (a.size_ = 0 ∨ a.size_ ≠ b.size_) := by
        rintro (h | h)
        · exact h0 h
        · exact h hs
      rw [if_neg hguard, hn, op_eq_loop_true]
      constructor
      · intro hall
        exact ⟨h0, hs, fun i hi => hall i (Nat.zero_le i) (by omega)⟩
      · rintro ⟨_, _, hall⟩ k _ hk
        exact hall k (by omega)
    · have hguard : a.size_ = 0 ∨ a.size_ ≠ b.size_ := Or.inr hs
      rw [if_pos hguard]
      simp [hs]

/-- C8 as stated fails on `[1, 2]` and `[1, 3]`: the first precedes the second
in lexicographic order (they differ first at index 1, where 2 < 3), and `<`
returns false because the elements at index 0 are equal. -/
theorem op_lt_lex_counterexample :
    op_lt (of_list 5 [1, 2] : light_vector Int) (of_list 5 [1, 3]) = false ∧
    lex_precedes (of_list 5 [1, 2] : light_vector Int) (of_list 5 [1, 3]) ∧
    live (of_list 5 [1, 2] : light_vector Int) < live (of_list 5 [1, 3] : light_vector Int) ∧
    ¬ (op_lt (of_list 5 [1, 2] : light_vector Int) (of_list 5 [1, 3]) = true ↔
        lex_precedes (of_list 5 [1, 2] : light_vector Int) (of_list 5 [1, 3])) := by
  have hlt : op_lt (of_list 5 [1, 2] : light_vector Int) (of_list 5 [1, 3]) = false := by
    decide
  have hlex : lex_precedes (of_list 5 [1, 2] : light_vector Int) (of_list 5 [1, 3]) := by
    refine Or.inr ⟨1, by decide, by decide, ?_, by decide⟩
    intro i hi
    have hi0 : i = 0 := by omega
    subst hi0
    decide
  refine ⟨hlt, hlex, by decide, ?_⟩
  intro h
  rw [hlt] at h
  exact Bool.false_ne_true (h.mpr hlex)

/-- C8, amended: `a < b` returns true exactly when `a` is not empty, `a` is no
longer than `b`, and `a[i] < b[i]` at every index `i` below the length of `a`. -/
theorem op_lt_iff [LinearOrder T] (a b : light_vector T) :
    op_lt a b = true ↔
      a.size_ ≠ 0 ∧ a.size_ ≤ b.size_ ∧ ∀ i, i < a.size_ → a.buffer i < b.buffer i := by
  unfold op_lt
  by_cases hguard : a.size_ = 0 ∨ a.size_ > b.size_
  · rw [if_pos hguard]
    simp only [Bool.false_eq_true, false_iff]
    rintro ⟨h0, hle, _⟩
    rcases hguard with h | h
    · exact h0 h
    · omega
  · rw [if_neg hguard]
    have h0 : a.size_ ≠ 0 := fun h => hguard (Or.inl h)
    have hle : a.size_ ≤ b.size_ := by
      by_contra hgt
      exact hguard (Or.inr (by omega))
    have hn : (if a.size_ < b.size_ then a.size_ else b.size_) - 1 + 1 = a.size_ := by
      split <;> omega
    rw [hn, op_lt_loop_true]
    constructor
    · intro hall
      exact ⟨h0, hle, fun i hi => hall i (Nat.zero_le i) (by omega)⟩
    · rintro ⟨_, _, hall⟩ k _ hk
      exact hall k (by omega)

/-- C9: there are two non-empty vectors of equal length, `[1, 2]` and `[1, 3]`,
on which `==` returns false and `!=` returns false as well. -/
theorem op_eq_op_ne_both_false :
    ∃ a b : light_vector Int,
      live a = [1, 2] ∧ live b = [1, 3] ∧ a.size_ ≠ 0 ∧ a.size_ = b.size_ ∧
      op_eq a b = false ∧ op_ne a b = false :=
  ⟨of_list 5 [1, 2], of_list 5 [1, 3], by decide, by decide, by decide, by decide,
    by decide, by decide⟩

/-- C10: `contains(v)` returns true exactly when some slot below `size_` holds
`v`, and every slot the scan reads has an index below `size_`. -/
theorem contains_iff [DecidableEq T] (s : light_vector T) (v : T) :
    (contains s v = true ↔ ∃ i, i < s.size_ ∧ s.buffer i = v) ∧
    ∀ i, i ∈ (contains_trace s v).2 → i < s.size_ := by
  unfold contains contains_trace
  by_cases h0 : s.size_ = 0
  · rw [if_pos h0]
    refine ⟨?_, ?_⟩
    · simp only [Bool.false_eq_true, false_iff]
      rintro ⟨i, hi, _⟩
      omega
    · intro i hi
      simp at hi
  · rw [if_neg h0]
    have hn : s.size_ - 1 + 1 = s.size_ := by omega
    rw [hn]
    refine ⟨?_, ?_⟩
    · rw [contains_loop_true]
      constructor
      · rintro ⟨k, _, hk, hv⟩
        exact ⟨k, by omega, hv⟩
      · rintro ⟨i, hi, hv⟩
        exact ⟨i, Nat.zero_le i, by omega, hv⟩
    · intro i hi
      have := contains_loop_reads s.buffer v s.size_ 0 i hi
      omega

/-- C11 as stated fails on the one-element vector `[5]`: the absent value 7
and the value 5 found at position 0 both give the result 0, and 0 is a valid
index. -/
theorem index_of_absent_counterexample :
    (of_list 5 [5] : light_vector Int).size_ ≠ 0 ∧
    (∀ i, i < (of_list 5 [5] : light_vector Int).size_ →
      (of_list 5 [5] : light_vector Int).buffer i ≠ 7) ∧
    index_of (of_list 5 [5] : light_vector Int) 7 = some 0 ∧
    0 < (of_list 5 [5] : light_vector Int).size_ ∧
    index_of (of_list 5 [5] : light_vector Int) 5 = some 0 := by
  decide

/-- C11, amended: on a non-empty vector `index_of(v)` returns the smallest
index below the length whose element equals `v` when `v` is present, and
returns 0 when `v` is absent. -/
theorem index_of_first_or_zero [DecidableEq T] (s : light_vector T) (v : T)
    (hne : s.size_ ≠ 0) (hsz : s.size_ < SIZE_MOD) :
    (∀ i, i < s.size_ → s.buffer i = v → (∀ k, k < i → s.buffer k ≠ v) →
      index_of s v = some i) ∧
    ((∀ i, i < s.size_ → s.buffer i ≠ v) → index_of s v = some 0) := by
  have hlast : size_sub s.size_ 1 = s.size_ - 1 := size_sub_one s.size_ hne hsz
  unfold index_of
  rw [hlast]
  constructor
  · intro i hi hv hmin
    exact index_of_loop_found s.buffer v (s.size_ - 1) (by omega) i (by omega) hv
      (s.size_ - 1 + 2) 0 (Nat.zero_le i) (by omega) (fun k _ hk => hmin k hk)
  · intro habs
    exact index_of_loop_absent s.buffer v (s.size_ - 1) (by omega) (s.size_ - 1 + 2) 0
      (by omega) (by omega) (fun k _ hk => habs k (by omega))

/-- C11, amended, on `[3, 5, 5]`: `index_of(5)` is 1. -/
theorem index_of_first_or_zero_witness :
    (of_list 5 [3, 5, 5] : light_vector Int).size_ ≠ 0 ∧
    (of_list 5 [3, 5, 5] : light_vector Int).size_ < SIZE_MOD ∧
    index_of (of_list 5 [3, 5, 5] : light_vector Int) 5 = some 1 :=
  ⟨by decide, by decide,
    (index_of_first_or_zero (of_list 5 [3, 5, 5] : light_vector Int) 5
      (by decide) (by decide)).1 1 (by decide) (by decide) (by decide)⟩

/-- C12: on `[1, 2, 3]`, `reverse()` swaps slot 0 with slot `size_ - 0 = 3`,
which is not live: the live sequence becomes `[0, 2, 3]`, not `[3, 2, 1]`, and
slot 3 now holds 1. -/
theorem reverse_example_off_by_one :
    (reverse (of_list 5 [1, 2, 3] : light_vector Int)).size_ = 3 ∧
    live (reverse (of_list 5 [1, 2, 3] : light_vector Int)) = [0, 2, 3] ∧
    live (reverse (of_list 5 [1, 2, 3] : light_vector Int)) ≠ [3, 2, 1] ∧
    (of_list 5 [1, 2, 3] : light_vector Int).buffer 3 = 0 ∧
    (reverse (of_list 5 [1, 2, 3] : light_vector Int)).buffer 3 = 1 := by
  decide

/-- C14: on the full vector `[1]` of capacity 1, `+= 2` stores 2 in slot 1 and
sets `size_` to 2, while `push_back(2)` leaves the vector as it is. -/
theorem op_plus_eq_differs_when_full :
    (of_list 1 [1] : light_vector Int).size_ = 1 ∧
    (op_plus_eq 1 (of_list 1 [1] : light_vector Int) 2).size_ = 2 ∧
    live (op_plus_eq 1 (of_list 1 [1] : light_vector Int) 2) = [1, 2] ∧
    (push_back 1 (of_list 1 [1] : light_vector Int) 2).size_ = 1 ∧
    live (push_back 1 (of_list 1 [1] : light_vector Int) 2) = [1] ∧
    op_plus_eq 1 (of_list 1 [1] : light_vector Int) 2 ≠
      push_back 1 (of_list 1 [1] : light_vector Int) 2 := by
  refine ⟨by decide, by decide, by decide, by decide, by decide, ?_⟩
  intro h
  have hsize := congrArg light_vector.size_ h
  revert hsize
  decide

end light_vector

namespace static_vector

variable {T : Type}

/-! ## Auxiliary facts -/

theorem live_length (s : static_vector T) : (live s).length = s.size_ := by
  simp [live]

theorem live_push_back (N : Nat) (s : static_vector T) (e : T) (hle : s.size_ ≤ N)
    (hN : N < SIZE_MOD) :
    (push_back N s e).size_ ≤ N ∧
    live (push_back N s e) = if (live s).length = N then live s else live s ++ [e] := by
  rw [live_length]
  unfold push_back
  by_cases hfull : s.size_ = N
  · rw [if_pos hfull, if_pos hfull]
    exact ⟨hle, rfl⟩
  · rw [if_neg hfull, if_neg hfull, light_vector.size_add_eq _ _ (by omega)]
    refine ⟨by show s.size_ + 1 ≤ N; omega, ?_⟩
    unfold live
    show List.map (store s.buffer s.size_ e) (List.range (s.size_ + 1)) = _
    rw [List.range_succ, List.map_append, List.map_singleton, light_vector.store_same]
    congr 1
    apply List.map_congr_left
    intro i hi
    exact light_vector.store_other _ _ _ _ (Nat.ne_of_lt (List.mem_range.mp hi))

theorem live_pop_back (N : Nat) (s : static_vector T) (hle : s.size_ ≤ N) :
    (pop_back s).size_ ≤ N ∧
    live (pop_back s) = if (live s).length = 0 then live s else (live s).dropLast := by
  rw [live_length]
  unfold pop_back
  by_cases h0 : s.size_ = 0
  · rw [if_pos h0, if_pos h0]
    exact ⟨hle, rfl⟩
  · rw [if_neg h0, if_neg h0]
    refine ⟨by show s.size_ - 1 ≤ N; omega, ?_⟩
    obtain ⟨k, hk⟩ : ∃ k, s.size_ = k + 1 := ⟨s.size_ - 1, by omega⟩
    unfold live
    show List.map s.buffer (List.range (s.size_ - 1)) = _
    rw [hk, List.range_succ, List.map_append, List.map_singleton, List.dropLast_concat]
    rfl

theorem live_clear (N : Nat) (s : static_vector T) :
    (clear s).size_ ≤ N ∧ live (clear s) = [] := by
  unfold clear
  by_cases h0 : s.size_ = 0
  · rw [if_pos h0]
    refine ⟨by omega, ?_⟩
    simp [live, h0]
  · rw [if_neg h0]
    exact ⟨Nat.zero_le N, rfl⟩

theorem run_refines (N : Nat) (hN : N < SIZE_MOD) (cs : List (call T)) :
    ∀ (s : static_vector T) (xs : List T), s.size_ ≤ N → live s = xs →
      (run N s cs).size_ ≤ N ∧ live (run N s cs) = model_run N xs cs := by
  induction cs with
  | nil =>
    intro s xs hle hlive
    exact ⟨hle, hlive⟩
  | cons c cs ih =>
    intro s xs hle hlive
    unfold run model_run
    subst hlive
    cases c with
    | push_back e =>
      exact ih _ _ (live_push_back N s e hle hN).1 (live_push_back N s e hle hN).2
    | pop_back =>
      exact ih _ _ (live_pop_back N s hle).1 (live_pop_back N s hle).2
    | clear =>
      exact ih _ _ (live_clear N s).1 (live_clear N s).2

/-! ## Claims -/

/-- C13: with a pointer element type (address 0 is the null pointer),
`push_back(7)` followed by `pop_back()` gives a vector with `size() == 0` on
which `empty()` returns false, and `push_back(nullptr)` gives a vector with
`size() == 1` on which `empty()` returns true; the same for `static_vector`. -/
theorem empty_disagrees_with_size :
    (light_vector.size (light_vector.pop_back
        (light_vector.push_back 4 (light_vector.empty : light_vector Nat) 7)) = 0 ∧
      light_vector.is_empty (light_vector.pop_back
        (light_vector.push_back 4 (light_vector.empty : light_vector Nat) 7)) = false) ∧
    (light_vector.size (light_vector.push_back 4 (light_vector.empty : light_vector Nat) 0) = 1 ∧
      light_vector.is_empty
        (light_vector.push_back 4 (light_vector.empty : light_vector Nat) 0) = true) ∧
    ((pop_back (push_back 4 (init : static_vector Nat) 7)).size_ = 0 ∧
      empty (pop_back (push_back 4 (init : static_vector Nat) 7)) = false) ∧
    ((push_back 4 (init : static_vector Nat) 0).size_ = 1 ∧
      empty (push_back 4 (init : static_vector Nat) 0) = true) := by
  decide

/-- C20: from the empty `static_vector<T, N>`, after any sequence of
`push_back`, `pop_back` and `clear` the length is at most `N` and the live
elements are those of the list model. -/
theorem run_init_refines_model [Inhabited T] (N : Nat) (hN : N < SIZE_MOD)
    (cs : List (call T)) :
    (run N (init : static_vector T) cs).size_ ≤ N ∧
    live (run N (init : static_vector T) cs) = model_run N [] cs :=
  run_refines N hN cs init [] (Nat.zero_le N) rfl

/-- C20 with `N = 2`: push 1, push 2, push 3 (dropped), pop, clear, pop, push 9. -/
theorem run_init_refines_model_witness :
    2 < SIZE_MOD ∧
    (run 2 (init : static_vector Int)
      [.push_back 1, .push_back 2, .push_back 3, .pop_back, .clear, .pop_back,
        .push_back 9]).size_ ≤ 2 ∧
    live (run 2 (init : static_vector Int)
      [.push_back 1, .push_back 2, .push_back 3, .pop_back, .clear, .pop_back,
        .push_back 9]) =
      model_run 2 []
        [.push_back 1, .push_back 2, .push_back 3, .pop_back, .clear, .pop_back,
          .push_back 9] :=
  ⟨by decide,
    run_init_refines_model 2 (by decide)
      [.push_back 1, .push_back 2, .push_back 3, .pop_back, .clear, .pop_back,
        .push_back 9]⟩

end static_vector

namespace static_string

/-! ## Auxiliary facts -/

theorem str_ext (a b : static_string) (hdata : a.data_ = b.data_) (hsize : a.size_ = b.size_) :
    a = b := by
  cases a
  cases b
  simp_all

theorem str_op_eq_loop_spec (d sd : Nat → Nat) (last : Nat) (hlast : last + 1 < SIZE_MOD)
    (fuel : Nat) :
    ∀ i, i ≤ last + 1 → last + 2 ≤ fuel + i →
      ∃ r, op_eq_loop d sd last fuel i = some r ∧
        (r = true ↔ ∀ k, i ≤ k → k ≤ last → d k = sd k) := by
  induction fuel with
  | zero =>
    intro i hi hfuel
    omega
  | succ fuel ih =>
    intro i hi hfuel
    unfold op_eq_loop
    by_cases hle : i ≤ last
    · rw [if_pos hle]
      by_cases hd : d i = sd i
      · rw [if_neg (not_not.mpr hd), light_vector.size_add_eq i 1 (by omega)]
        obtain ⟨r, hr, hiff⟩ := ih (i + 1) (by omega) (by omega)
        refine ⟨r, hr, hiff.trans ⟨?_, ?_⟩⟩
        · intro hall k h1 h2
          rcases Nat.eq_or_lt_of_le h1 with heq | hlt
          · rw [← heq]
            exact hd
          · exact hall k hlt h2
        · intro hall k h1 h2
          exact hall k (by omega) h2
      · rw [if_pos hd]
        refine ⟨false, rfl, ?_⟩
        simp only [Bool.false_eq_true, false_iff]
        intro hall
        exact hd (hall i (Nat.le_refl i) hle)
    · rw [if_neg hle]
      refine ⟨true, rfl, ?_⟩
      simp only [true_iff]
      intro k h1 h2
      omega

theorem str_op_lt_loop_spec (d sd : Nat → Nat) (last : Nat) (hlast : last + 1 < SIZE_MOD)
    (fuel : Nat) :
    ∀ i, i ≤ last + 1 → last + 2 ≤ fuel + i →
      ∃ r, op_lt_loop d sd last fuel i = some r ∧
        (r = true ↔ ∀ k, i ≤ k → k ≤ last → d k ≤ sd k) := by
  induction fuel with
  | zero =>
    intro i hi hfuel
    omega
  | succ fuel ih =>
    intro i hi hfuel
    unfold op_lt_loop
    by_cases hle : i ≤ last
    · rw [if_pos hle]
      by_cases hd : d i > sd i
      · rw [if_pos hd]
        refine ⟨false, rfl, ?_⟩
        simp only [Bool.false_eq_true, false_iff]
        intro hall
        have := hall i (Nat.le_refl i) hle
        omega
      · rw [if_neg hd, light_vector.size_add_eq i 1 (by omega)]
        obtain ⟨r, hr, hiff⟩ := ih (i + 1) (by omega) (by omega)
        refine ⟨r, hr, hiff.trans ⟨?_, ?_⟩⟩
        · intro hall k h1 h2
          rcases Nat.eq_or_lt_of_le h1 with heq | hlt
          · rw [← heq]
            omega
          · exact hall k hlt h2
        · intro hall k h1 h2
          exact hall k (by omega) h2
    · rw [if_neg hle]
      refine ⟨true, rfl, ?_⟩
      simp only [true_iff]
      intro k h1 h2
      omega

theorem str_op_lt_spec (a b : static_string) (ha : a.size_ ≠ 0) (hsz : a.size_ < SIZE_MOD) :
    ∃ r, op_lt a b = some r ∧
      (r = true ↔ (a.size_ ≤ b.size_ ∧ ∀ i, i < a.size_ → a.data_ i ≤ b.data_ i)) := by
  have hlast : size_sub a.size_ 1 = a.size_ - 1 := light_vector.size_sub_one a.size_ ha hsz
  obtain ⟨r, hr, hiff⟩ := str_op_lt_loop_spec a.data_ b.data_ (a.size_ - 1) (by omega)
    (a.size_ - 1 + 2) 0 (by omega) (by omega)
  unfold op_lt
  rw [hlast, hr]
  refine ⟨_, rfl, ?_⟩
  have hall : (∀ k, 0 ≤ k → k ≤ a.size_ - 1 → a.data_ k ≤ b.data_ k) ↔
      ∀ i, i < a.size_ → a.data_ i ≤ b.data_ i :=
    ⟨fun h i hi => h i (Nat.zero_le i) (by omega), fun h k _ hk => h k (by omega)⟩
  rw [← hall, ← hiff]
  cases r with
  | false => simp
  | true =>
    by_cases hgt : a.size_ > b.size_
    · simp [hgt]
    · simp [hgt]
      omega

theorem str_reverse_loop_spec (sz n : Nat) :
    ∀ (i : Nat) (d : Nat → Nat), 2 * (i + n) ≤ sz → ∀ k,
      reverse_loop sz n i d k =
        if (i ≤ k ∧ k < i + n) ∨ (k < sz ∧ i ≤ sz - 1 - k ∧ sz - 1 - k < i + n) then
          d (sz - 1 - k)
        else d k := by
  induction n with
  | zero =>
    intro i d _ k
    have hcond : ¬ ((i ≤ k ∧ k < i + 0) ∨ (k < sz ∧ i ≤ sz - 1 - k ∧ sz - 1 - k < i + 0)) := by
      omega
    rw [if_neg hcond]
    rfl
  | succ n ih =>
    intro i d hsz k
    unfold reverse_loop
    rw [ih (i + 1) _ (by omega) k]
    unfold store
    split_ifs <;> first | rfl | (exfalso; omega) | (congr 1; omega)

theorem str_reverse_data (s : static_string) (k : Nat) :
    (reverse s).data_ k = if k < s.size_ then s.data_ (s.size_ - 1 - k) else s.data_ k := by
  unfold reverse
  by_cases hsmall : s.size_ < 2
  · rw [if_pos hsmall]
    split_ifs with hk
    · congr 1
      omega
    · rfl
  · rw [if_neg hsmall]
    show reverse_loop s.size_ (s.size_ / 2) 0 s.data_ k = _
    rw [str_reverse_loop_spec s.size_ (s.size_ / 2) 0 s.data_ (by omega) k]
    split_ifs <;> first | rfl | (exfalso; omega) | (congr 1; omega)

theorem str_reverse_size (s : static_string) : (reverse s).size_ = s.size_ := by
  unfold reverse
  split_ifs <;> rfl

theorem find_inner_break (s p : static_string) (i m1 j0 : Nat) (hj0 : j0 < m1)
    (hmis : s.data_ (i + j0) ≠ p.data_ j0) (hbound : i + m1 < SIZE_MOD) (n : Nat) :
    ∀ j position, j ≤ j0 → j0 < n + j →
      find_inner s p i m1 n j j position = .left 0 0 := by
  induction n with
  | zero =>
    intro j position h1 h2
    omega
  | succ n ih =>
    intro j position h1 h2
    unfold find_inner
    rw [light_vector.size_add_eq i j (by omega)]
    unfold op_index
    by_cases hmatch : s.data_ (i + j) = p.data_ j
    · have hne : j ≠ j0 := by
        intro h
        rw [h] at hmatch
        exact hmis hmatch
      rw [if_pos hmatch, if_neg (by omega), light_vector.size_add_eq j 1 (by omega)]
      exact ih (j + 1) position (by omega) (by omega)
    · rw [if_neg hmatch]

theorem find_outer_zero (s p : static_string) (hbound : s.size_ + p.size_ ≤ SIZE_MOD)
    (n : Nat) :
    ∀ i, (n ≠ 0 → i + n ≤ s.size_) →
      (∀ k, i ≤ k → k < i + n →
        ¬ (s.data_ k = p.data_ 0 ∧ ∀ j, j < p.size_ - 1 → s.data_ (k + j) = p.data_ j)) →
      find_outer s p n i 0 0 = 0 := by
  induction n with
  | zero =>
    intro i _ _
    rfl
  | succ n ih =>
    intro i hi hno
    have hin : i + (n + 1) ≤ s.size_ := hi (Nat.succ_ne_zero n)
    have hrest : find_outer s p n (i + 1) 0 0 = 0 :=
      ih (i + 1) (by omega) (fun k h1 h2 => hno k (by omega) (by omega))
    unfold find_outer
    by_cases hfirst : s.data_ i = op_index p 0
    · rw [if_pos hfirst]
      have hnot : ¬ ∀ j, j < p.size_ - 1 → s.data_ (i + j) = p.data_ j :=
        fun hall => hno i (Nat.le_refl i) (by omega) ⟨hfirst, hall⟩
      obtain ⟨j0, hj0⟩ := not_forall.mp hnot
      obtain ⟨hlt, hmis⟩ := Classical.not_imp.mp hj0
      have hbreak := find_inner_break s p i (length p - 1) j0 hlt hmis
        (by unfold length; omega) (length p - 1 + 1) 0 0 (Nat.zero_le j0)
        (by unfold length; omega)
      rw [hbreak]
      exact hrest
    · rw [if_neg hfirst]
      exact hrest

theorem find_inner_match (s p : static_string) (i m1 : Nat) (hbound : i + m1 < SIZE_MOD)
    (n : Nat) :
    ∀ j position, j < m1 → m1 ≤ n + j →
      (∀ t, j ≤ t → t < m1 → s.data_ (i + t) = p.data_ t) →
      find_inner s p i m1 n j j position = .returned i := by
  induction n with
  | zero =>
    intro j position h1 h2 _
    omega
  | succ n ih =>
    intro j position h1 h2 hall
    unfold find_inner
    rw [light_vector.size_add_eq i j (by omega)]
    unfold op_index
    rw [if_pos (hall j (Nat.le_refl j) h1)]
    by_cases hlast : j + 1 = m1
    · rw [if_pos hlast]
    · rw [if_neg hlast, light_vector.size_add_eq j 1 (by omega)]
      exact ih (j + 1) position (by omega) (by omega) (fun t h3 h4 => hall t (by omega) h4)

theorem find_inner_exit (s p : static_string) (i : Nat) (hp : 2 ≤ p.size_)
    (hbound : i + p.size_ ≤ SIZE_MOD) (position : Nat) :
    (prefix_match s p i ∧
      find_inner s p i (length p - 1) (length p - 1 + 1) 0 0 position = .returned i) ∨
    (¬ prefix_match s p i ∧
      find_inner s p i (length p - 1) (length p - 1 + 1) 0 0 position = .left 0 0) := by
  by_cases hall : prefix_match s p i
  · left
    refine ⟨hall, ?_⟩
    exact find_inner_match s p i (length p - 1) (by unfold length; omega) (length p - 1 + 1)
      0 position (by unfold length; omega) (by omega) (fun t _ ht => hall t ht)
  · right
    refine ⟨hall, ?_⟩
    obtain ⟨j0, hj0⟩ := not_forall.mp hall
    obtain ⟨hlt, hmis⟩ := Classical.not_imp.mp hj0
    exact find_inner_break s p i (length p - 1) j0 hlt hmis (by unfold length; omega)
      (length p - 1 + 1) 0 position (Nat.zero_le j0) (by unfold length; omega)

theorem find_outer_first (s p : static_string) (hp : 2 ≤ p.size_)
    (hbound : s.size_ + p.size_ ≤ SIZE_MOD) (k : Nat) (hk : prefix_match s p k) (n : Nat) :
    ∀ i, i ≤ k → k < i + n → i + n ≤ s.size_ →
      (∀ t, i ≤ t → t < k → ¬ prefix_match s p t) →
      find_outer s p n i 0 0 = k := by
  induction n with
  | zero =>
    intro i h1 h2 _ _
    omega
  | succ n ih =>
    intro i h1 h2 h3 hmin
    unfold find_outer
    by_cases hik : i = k
    · have hfirst : s.data_ i = op_index p 0 := by
        rw [hik]
        exact hk 0 (by omega)
      rw [if_pos hfirst]
      rcases find_inner_exit s p i hp (by omega) 0 with ⟨_, hret⟩ | ⟨hnot, _⟩
      · rw [hret]
        exact hik
      · rw [hik] at hnot
        exact absurd hk hnot
    · have hrest : find_outer s p n (i + 1) 0 0 = k :=
        ih (i + 1) (by omega) (by omega) (by omega) (fun t h4 h5 => hmin t (by omega) h5)
      by_cases hfirst : s.data_ i = op_index p 0
      · rw [if_pos hfirst]
        rcases find_inner_exit s p i hp (by omega) 0 with ⟨hyes, _⟩ | ⟨_, hleft⟩
        · exact absurd hyes (hmin i (Nat.le_refl i) (by omega))
        · rw [hleft]
          exact hrest
      · rw [if_neg hfirst]
        exact hrest

theorem find_inner_trace_fst (s p : static_string) (i m1 n : Nat) :
    ∀ j jump position,
      (find_inner_trace s p i m1 n j jump position).1 = find_inner s p i m1 n j jump position := by
  induction n with
  | zero =>
    intro j jump position
    rfl
  | succ n ih =>
    intro j jump position
    unfold find_inner_trace find_inner
    split_ifs
    · rfl
    · exact ih _ _ _
    · rfl

theorem find_outer_trace_fst (s p : static_string) (n : Nat) :
    ∀ i position jump,
      (find_outer_trace s p n i position jump).1 = find_outer s p n i position jump := by
  induction n with
  | zero =>
    intro i position jump
    rfl
  | succ n ih =>
    intro i position jump
    unfold find_outer_trace find_outer
    rw [find_inner_trace_fst]
    by_cases hfirst : s.data_ i = op_index p 0
    · rw [if_pos hfirst, if_pos hfirst]
      cases find_inner s p i (length p - 1) (length p - 1 + 1) 0 jump position with
      | returned q => rfl
      | left position2 jump2 => exact ih _ _ _
    · rw [if_neg hfirst, if_neg hfirst]
      exact ih _ _ _

theorem find_trace_fst (s p : static_string) (index : Nat) :
    (find_trace s p index).1 = find s p index := by
  unfold find_trace find
  split_ifs
  · rfl
  · exact find_outer_trace_fst s p _ _ _ _

theorem find_inner_trace_reads (s p : static_string) (i m1 : Nat)
    (hterm : s.data_ s.size_ = 0) (hpat : ∀ j, j < m1 → p.data_ j ≠ 0)
    (hbound : i + m1 < SIZE_MOD) (n : Nat) :
    ∀ j position, j < m1 → i + j ≤ s.size_ →
      ∀ e, e ∈ (find_inner_trace s p i m1 n j j position).2 → e.1 ≤ s.size_ ∧ e.2 < m1 := by
  induction n with
  | zero =>
    intro j position _ _ e he
    simp [find_inner_trace] at he
  | succ n ih =>
    intro j position h1 h2 e he
    unfold find_inner_trace at he
    rw [light_vector.size_add_eq i j (by omega)] at he
    unfold op_index at he
    by_cases hmatch : s.data_ (i + j) = p.data_ j
    · rw [if_pos hmatch] at he
      by_cases hlast : j + 1 = m1
      · rw [if_pos hlast] at he
        simp only [List.mem_singleton] at he
        rw [he]
        exact ⟨h2, h1⟩
      · rw [if_neg hlast, light_vector.size_add_eq j 1 (by omega)] at he
        simp only [List.mem_cons] at he
        rcases he with he | he
        · rw [he]
          exact ⟨h2, h1⟩
        · have hne : i + j ≠ s.size_ := by
            intro h
            rw [h, hterm] at hmatch
            exact hpat j h1 hmatch.symm
          exact ih (j + 1) position (by omega) (by omega) e he
    · rw [if_neg hmatch] at he
      simp only [List.mem_singleton] at he
      rw [he]
      exact ⟨h2, h1⟩

theorem find_outer_trace_reads (s p : static_string) (hp : 2 ≤ p.size_)
    (hbound : s.size_ + p.size_ ≤ SIZE_MOD) (hterm : s.data_ s.size_ = 0)
    (hpat : ∀ j, j < p.size_ → p.data_ j ≠ 0) (n : Nat) :
    ∀ i, (n ≠ 0 → i + n ≤ s.size_) →
      ∀ e, e ∈ (find_outer_trace s p n i 0 0).2 → e.1 ≤ s.size_ ∧ e.2 < p.size_ - 1 := by
  induction n with
  | zero =>
    intro i _ e he
    simp [find_outer_trace] at he
  | succ n ih =>
    intro i hi e he
    have hin : i + (n + 1) ≤ s.size_ := hi (Nat.succ_ne_zero n)
    have hhead : e = (i, 0) → e.1 ≤ s.size_ ∧ e.2 < p.size_ - 1 := by
      intro h
      rw [h]
      exact ⟨by show i ≤ s.size_; omega, by show 0 < p.size_ - 1; omega⟩
    have hinner : e ∈ (find_inner_trace s p i (length p - 1) (length p - 1 + 1) 0 0 0).2 →
        e.1 ≤ s.size_ ∧ e.2 < p.size_ - 1 :=
      find_inner_trace_reads s p i (length p - 1) hterm
        (fun j hj => hpat j (by unfold length at hj; omega)) (by unfold length; omega)
        (length p - 1 + 1) 0 0 (by unfold length; omega) (by omega) e
    have hrest : e ∈ (find_outer_trace s p n (i + 1) 0 0).2 →
        e.1 ≤ s.size_ ∧ e.2 < p.size_ - 1 :=
      ih (i + 1) (by omega) e
    unfold find_outer_trace at he
    by_cases hfirst : s.data_ i = op_index p 0
    · rw [if_pos hfirst, find_inner_trace_fst] at he
      rcases find_inner_exit s p i hp (by omega) 0 with ⟨_, hret⟩ | ⟨_, hleft⟩
      · rw [hret] at he
        simp only [List.mem_cons] at he
        rcases he with he | he
        · exact hhead he
        · exact hinner he
      · rw [hleft] at he
        simp only [List.mem_cons, List.mem_append] at he
        rcases he with he | he | he
        · exact hhead he
        · exact hinner he
        · exact hrest he
    · rw [if_neg hfirst] at he
      simp only [List.mem_cons] at he
      rcases he with he | he
      · exact hhead he
      · exact hrest he

/-- On `"abc"` and itself `<` returns true. -/
theorem str_op_lt_self_example :
    op_lt ⟨c_str "abc", 3⟩ ⟨c_str "abc", 3⟩ = some true := by
  decide

/-! ## Claims -/

/-- C15: for views of non-zero length, `a == b` returns, and it returns true
exactly when the cached lengths are equal and the characters agree at every
index below the length. -/
theorem str_op_eq_iff (a b : static_string) (ha : a.size_ ≠ 0) (hb : b.size_ ≠ 0)
    (hsz : a.size_ < SIZE_MOD) :
    ∃ r, op_eq a b = some r ∧
      (r = true ↔ (a.size_ = b.size_ ∧ ∀ i, i < a.size_ → a.data_ i = b.data_ i)) := by
  unfold op_eq
  by_cases hs : a.size_ = b.size_
  · have hlast : size_sub a.size_ 1 = a.size_ - 1 := light_vector.size_sub_one a.size_ ha hsz
    rw [if_neg (not_not.mpr hs), hlast]
    obtain ⟨r, hr, hiff⟩ := str_op_eq_loop_spec a.data_ b.data_ (a.size_ - 1) (by omega)
      (a.size_ - 1 + 2) 0 (by omega) (by omega)
    refine ⟨r, hr, hiff.trans ⟨?_, ?_⟩⟩
    · intro hall
      exact ⟨hs, fun i hi => hall i (Nat.zero_le i) (by omega)⟩
    · rintro ⟨_, hall⟩ k _ hk
      exact hall k (by omega)
  · rw [if_pos hs]
    refine ⟨false, rfl, ?_⟩
    simp only [Bool.false_eq_true, false_iff]
    rintro ⟨h, _⟩
    exact hs h

/-- C15 on the views of `"abc"`, `"abc"` and `"abd"`: the first two are equal,
the first and the third are not. -/
theorem str_op_eq_iff_witness :
    make (c_str "abc") = some ⟨c_str "abc", 3⟩ ∧ make (c_str "abd") = some ⟨c_str "abd", 3⟩ ∧
    op_eq ⟨c_str "abc", 3⟩ ⟨c_str "abc", 3⟩ = some true ∧
    op_eq ⟨c_str "abc", 3⟩ ⟨c_str "abd", 3⟩ = some false ∧
    ∃ r, op_eq ⟨c_str "abc", 3⟩ ⟨c_str "abd", 3⟩ = some r ∧
      (r = true ↔ ((3 : Nat) = 3 ∧ ∀ i, i < 3 → c_str "abc" i = c_str "abd" i)) :=
  ⟨rfl, rfl, by decide, by decide,
    str_op_eq_iff ⟨c_str "abc", 3⟩ ⟨c_str "abd", 3⟩ (by decide) (by decide) (by decide)⟩

/-- C16 as stated fails on `"ab"` and `"ba"`: the first is less in
lexicographic order (index 0 decides, `a` before `b`), and `<` returns false
because of the characters at index 1. -/
theorem str_op_lt_lex_counterexample :
    make (c_str "ab") = some ⟨c_str "ab", 2⟩ ∧ make (c_str "ba") = some ⟨c_str "ba", 2⟩ ∧
    lex_less ⟨c_str "ab", 2⟩ ⟨c_str "ba", 2⟩ ∧
    op_lt ⟨c_str "ab", 2⟩ ⟨c_str "ba", 2⟩ = some false := by
  refine ⟨rfl, rfl, Or.inr ⟨0, by decide, by decide, ?_, by decide⟩, by decide⟩
  intro i hi
  omega

/-- C16, amended: for a view `a` of non-zero length, `a < b` returns; if it
returns true then `a` is no longer than `b` and no character of `a` is greater
than the character of `b` at the same index; and it does return true when `a`
is no longer than `b` and every character of `a` is smaller than the character
of `b` at the same index. -/
theorem str_op_lt_elementwise (a b : static_string) (ha : a.size_ ≠ 0)
    (hsz : a.size_ < SIZE_MOD) :
    ∃ r, op_lt a b = some r ∧
      (r = true → a.size_ ≤ b.size_ ∧ ∀ i, i < a.size_ → a.data_ i ≤ b.data_ i) ∧
      ((a.size_ ≤ b.size_ ∧ ∀ i, i < a.size_ → a.data_ i < b.data_ i) → r = true) := by
  obtain ⟨r, hr, hiff⟩ := str_op_lt_spec a b ha hsz
  refine ⟨r, hr, hiff.mp, ?_⟩
  rintro ⟨hle, hall⟩
  exact hiff.mpr ⟨hle, fun i hi => Nat.le_of_lt (hall i hi)⟩

/-- C16, amended, on `"abc"` and `"bcd"`: every character is smaller, so `<`
returns true. -/
theorem str_op_lt_elementwise_witness :
    (3 : Nat) ≠ 0 ∧ 3 < SIZE_MOD ∧
    op_lt ⟨c_str "abc", 3⟩ ⟨c_str "bcd", 3⟩ = some true ∧
    ∃ r, op_lt ⟨c_str "abc", 3⟩ ⟨c_str "bcd", 3⟩ = some r ∧
      (r = true → (3 : Nat) ≤ 3 ∧ ∀ i, i < 3 → c_str "abc" i ≤ c_str "bcd" i) ∧
      (((3 : Nat) ≤ 3 ∧ ∀ i, i < 3 → c_str "abc" i < c_str "bcd" i) → r = true) :=
  ⟨by decide, by decide, by decide,
    str_op_lt_elementwise ⟨c_str "abc", 3⟩ ⟨c_str "bcd", 3⟩ (by decide) (by decide)⟩

/-- C17: on `"xabxabc"` the search for `"abc"` from 0 returns 1, where the
pattern does not match (`"abx"`); its first occurrence is at index 4.  The
inner loop returns as soon as `j` reaches `substr.length()-1`, so the last
character of the pattern is never compared.  On `"abc"` the search for the
one-character pattern `"b"`, which occurs at index 1, returns 0. -/
theorem find_example_partial_match :
    make (c_str "xabxabc") = some ⟨c_str "xabxabc", 7⟩ ∧
    make (c_str "abc") = some ⟨c_str "abc", 3⟩ ∧
    make (c_str "b") = some ⟨c_str "b", 1⟩ ∧
    find ⟨c_str "xabxabc", 7⟩ ⟨c_str "abc", 3⟩ 0 = 1 ∧
    ¬ occurs_at ⟨c_str "xabxabc", 7⟩ ⟨c_str "abc", 3⟩ 1 ∧
    occurs_at ⟨c_str "xabxabc", 7⟩ ⟨c_str "abc", 3⟩ 4 ∧
    (∀ i, i < 4 → ¬ occurs_at ⟨c_str "xabxabc", 7⟩ ⟨c_str "abc", 3⟩ i) ∧
    occurs_at ⟨c_str "abc", 3⟩ ⟨c_str "b", 1⟩ 1 ∧
    find ⟨c_str "abc", 3⟩ ⟨c_str "b", 1⟩ 0 = 0 := by
  refine ⟨rfl, rfl, rfl, ?_, ?_, ?_, ?_, ?_, ?_⟩ <;> decide

/-- C18 as stated fails on `"abc"` and the pattern `"xyz"`: the pattern occurs
at no index, and `find` returns 0, which is a valid index of `"abc"`. -/
theorem find_not_found_counterexample :
    make (c_str "abc") = some ⟨c_str "abc", 3⟩ ∧
    make (c_str "xyz") = some ⟨c_str "xyz", 3⟩ ∧
    (∀ i, i < 3 → ¬ occurs_at ⟨c_str "abc", 3⟩ ⟨c_str "xyz", 3⟩ i) ∧
    find ⟨c_str "abc", 3⟩ ⟨c_str "xyz", 3⟩ 0 = 0 ∧
    (0 : Nat) < (⟨c_str "abc", 3⟩ : static_string).size_ := by
  refine ⟨rfl, rfl, ?_, ?_, ?_⟩ <;> decide

/-- C18, amended: when the view is empty, or the pattern is empty, or no index
`i` with `index ≤ i < size_` has the first character of the pattern at `i`
together with a match of all characters of the pattern but the last, `find`
returns 0. -/
theorem find_zero_of_no_candidate (s p : static_string) (index : Nat)
    (hbound : s.size_ + p.size_ ≤ SIZE_MOD)
    (hno : s.size_ = 0 ∨ p.size_ = 0 ∨
      ∀ i, index ≤ i → i < s.size_ →
        ¬ (s.data_ i = p.data_ 0 ∧ ∀ j, j < p.size_ - 1 → s.data_ (i + j) = p.data_ j)) :
    find s p index = 0 := by
  unfold find empty
  by_cases hs : s.size_ = 0
  · simp [hs]
  · by_cases hp : p.size_ = 0
    · simp [hp]
    · have hguard : ¬ (decide (s.size_ = 0) = true ∨ decide (p.size_ = 0) = true) := by
        simp [hs, hp]
      rw [if_neg hguard]
      rcases hno with h | h | h
      · exact absurd h hs
      · exact absurd h hp
      · exact find_outer_zero s p hbound (s.size_ - 1 + 1 - index) index (by omega)
          (fun k h1 h2 => h k h1 (by omega))

/-- C18, amended, on `"abc"` and the pattern `"bdx"`: the first character of
the pattern is found at index 1, its second character does not match there,
and `find` returns 0. -/
theorem find_zero_of_no_candidate_witness :
    (3 : Nat) + 3 ≤ SIZE_MOD ∧
    find ⟨c_str "abc", 3⟩ ⟨c_str "bdx", 3⟩ 0 = 0 :=
  ⟨by decide,
    find_zero_of_no_candidate ⟨c_str "abc", 3⟩ ⟨c_str "bdx", 3⟩ 0 (by decide)
      (Or.inr (Or.inr (by decide)))⟩

/-- C19: `reverse()` keeps `size_`; afterwards the character at each index
`i < size_` is the former character at `size_ - 1 - i`; every character at an
index `≥ size_`, the terminator included, is unchanged; it does nothing when
`size_ < 2`; and applied twice it restores the buffer. -/
theorem str_reverse_spec (s : static_string) :
    (reverse s).size_ = s.size_ ∧
    (∀ i, i < s.size_ → (reverse s).data_ i = s.data_ (s.size_ - 1 - i)) ∧
    (∀ i, s.size_ ≤ i → (reverse s).data_ i = s.data_ i) ∧
    (s.size_ < 2 → reverse s = s) ∧
    reverse (reverse s) = s := by
  refine ⟨str_reverse_size s, ?_, ?_, ?_, ?_⟩
  · intro i hi
    rw [str_reverse_data, if_pos hi]
  · intro i hi
    rw [str_reverse_data, if_neg (by omega)]
  · intro hsmall
    unfold reverse
    rw [if_pos hsmall]
  · apply str_ext
    · funext k
      rw [str_reverse_data, str_reverse_size]
      by_cases hk : k < s.size_
      · rw [if_pos hk, str_reverse_data, if_pos (by omega)]
        congr 1
        omega
      · rw [if_neg hk, str_reverse_data, if_neg hk]
    · rw [str_reverse_size, str_reverse_size]

/-- C21: for a non-empty view `s` over a null-terminated buffer, a pattern `p`
of length at least 2 and a start index `index`, `find` returns the smallest
index `i` with `index ≤ i < size_` at which all characters of `p` but the
last match, and 0 when there is no such index; every comparison it evaluates
reads `s` at an index no greater than that of the terminator and reads `p` at
an index below that of its last character. -/
theorem find_first_prefix_match (s p : static_string) (index : Nat)
    (hs : s.size_ ≠ 0) (hp : 2 ≤ p.size_) (hbound : s.size_ + p.size_ ≤ SIZE_MOD)
    (hterm : s.data_ s.size_ = 0) (hpat : ∀ j, j < p.size_ → p.data_ j ≠ 0) :
    (∀ i, index ≤ i → i < s.size_ → prefix_match s p i →
      (∀ k, index ≤ k → k < i → ¬ prefix_match s p k) → find s p index = i) ∧
    ((∀ i, index ≤ i → i < s.size_ → ¬ prefix_match s p i) → find s p index = 0) ∧
    (find_trace s p index).1 = find s p index ∧
    (∀ e, e ∈ (find_trace s p index).2 → e.1 ≤ s.size_ ∧ e.2 < p.size_ - 1) := by
  have hguard : ¬ (empty s = true ∨ empty p = true) := by
    unfold empty
    simp only [decide_eq_true_eq]
    omega
  refine ⟨?_, ?_, find_trace_fst s p index, ?_⟩
  · intro i h1 h2 hmatch hmin
    unfold find
    rw [if_neg hguard]
    exact find_outer_first s p hp hbound i hmatch (s.size_ - 1 + 1 - index) index h1
      (by omega) (by omega) hmin
  · intro hno
    unfold find
    rw [if_neg hguard]
    exact find_outer_zero s p hbound (s.size_ - 1 + 1 - index) index (by omega)
      (fun k h1 h2 hk => hno k h1 (by omega) hk.2)
  · intro e he
    unfold find_trace at he
    rw [if_neg hguard] at he
    exact find_outer_trace_reads s p hp hbound hterm hpat (s.size_ - 1 + 1 - index) index
      (by omega) e he

/-- C21 on `"xabxabc"` and the pattern `"abc"` from index 0: `"ab"` matches
first at index 1, and `find` returns 1. -/
theorem find_first_prefix_match_witness :
    (7 : Nat) ≠ 0 ∧ (2 : Nat) ≤ 3 ∧ (7 : Nat) + 3 ≤ SIZE_MOD ∧
    c_str "xabxabc" 7 = 0 ∧ (∀ j, j < 3 → c_str "abc" j ≠ 0) ∧
    prefix_match ⟨c_str "xabxabc", 7⟩ ⟨c_str "abc", 3⟩ 1 ∧
    find ⟨c_str "xabxabc", 7⟩ ⟨c_str "abc", 3⟩ 0 = 1 :=
  ⟨by decide, by decide, by decide, by decide, by decide, by decide,
    (find_first_prefix_match ⟨c_str "xabxabc", 7⟩ ⟨c_str "abc", 3⟩ 0
      (by decide) (by decide) (by decide) (by decide) (by decide)).1 1
      (by decide) (by decide) (by decide) (by decide)⟩

end static_string

end container_lite
